import Mathlib

/-!
Verification of the submitthem PBS job submission/tracking engine.

The core module `submitthem/pbs/pbs.py` is not part of the provided sources;
where a definition embeds that missing code it is modelled from the design
specification (see each doc comment).  Definitions taken from source files
under `src/` follow those files exactly.
-/

set_option maxHeartbeats 1000000

namespace SubmitThem

/-- Whitespace (within a line) for tabular qstat output. -/
def isWs (c : Char) : Bool := c == ' ' || c == '\t' || c == '\r'

/-- Split a character stream into lines at `'\n'` (a trailing newline does
not produce a trailing empty line, as with Python `splitlines`). -/
def splitLinesCh : List Char → List (List Char)
  | [] => []
  | c :: rest =>
    if c = '\n' then [] :: splitLinesCh rest
    else
      match splitLinesCh rest with
      | [] => [[c]]
      | l :: ls => (c :: l) :: ls

/-- Tokens of a line together with their starting column offsets. -/
def lineTokensAux : List Char → Nat → Option (List Char × Nat) → List (List Char × Nat)
  | [], _, none => []
  | [], _, some (tok, off) => [(tok.reverse, off)]
  | c :: rest, i, none =>
    if isWs c then lineTokensAux rest (i + 1) none
    else lineTokensAux rest (i + 1) (some ([c], i))
  | c :: rest, i, some (tok, off) =>
    if isWs c then (tok.reverse, off) :: lineTokensAux rest (i + 1) none
    else lineTokensAux rest (i + 1) (some (c :: tok, off))

def lineTokens (l : List Char) : List (List Char × Nat) := lineTokensAux l 0 none

/-- Normalized job states of the system (spec section 4.3). -/
inductive JobState
  | UNKNOWN
  | PENDING
  | RUNNING
  | COMPLETED
  | FAILED
  | TIMEOUT
  | PREEMPTED
  deriving DecidableEq, Repr

/-- Watcher cache entry (spec section 3, `JobInfo`): the normalized state of
one concrete job id, as parsed from the freshest status-query output. -/
structure JobInfo where
  state : JobState
  deriving DecidableEq, Repr

/-- Modelled from the spec: the scheduler's one-letter state codes are
normalized to `JobState` (section 4.3: `F`/`C` to COMPLETED, queued/held to
PENDING, running to RUNNING, anything unrecognized to UNKNOWN). -/
def normalizeState (s : String) : JobState :=
  if s = "F" ∨ s = "C" then .COMPLETED
  else if s = "Q" ∨ s = "H" then .PENDING
  else if s = "R" then .RUNNING
  else .UNKNOWN

/-- Offset of the `State` column: the start offset of the header token named
`S` (or `State`). -/
def columnOffset (header : List Char) : Option Nat :=
  ((lineTokens header).find? (fun t => t.1 == "S".toList || t.1 == "State".toList)).map (·.2)

/-- Value of the column starting at offset `off` in a data row. -/
def fieldAtOffset (line : List Char) (off : Nat) : List Char :=
  (((line.drop off).dropWhile isWs).takeWhile (fun c => !(isWs c)))

/-- The job id of a data row: its first token. -/
def rowId (line : List Char) : List Char :=
  ((line.dropWhile isWs).takeWhile (fun c => !(isWs c)))

/-- Modelled from the spec: the row scanner of `PBSInfoWatcher.read_info`
(missing `submitthem/pbs/pbs.py`).  It locates the header row to determine
column offsets, and extracts for every data row the job id and the raw value
of the `State` column (spec section 4.3). -/
def statusRows (raw : String) : List (String × String) :=
  match (splitLinesCh raw.toList).filter (fun l => !l.isEmpty) with
  | [] => []
  | header :: dataLines =>
    match columnOffset header with
    | some off => dataLines.map (fun l => (String.mk (rowId l), String.mk (fieldAtOffset l off)))
    | none => dataLines.map (fun l => (String.mk (rowId l), ""))

/-- Modelled from the spec: `PBSInfoWatcher.read_info` (missing
`submitthem/pbs/pbs.py`) parses raw status output into a fresh mapping from
job id to `JobInfo`, normalizing the `State` column letter (spec section
4.3); it is a pure function of the raw output. -/
def read_info (raw : String) : List (String × JobInfo) :=
  (statusRows raw).map (fun p => (p.1, JobInfo.mk (normalizeState p.2)))

/-- Association-list lookup (first match wins), the model of a Python dict
read. -/
def alookup {α : Type} : List (String × α) → String → Option α
  | [], _ => none
  | (k, v) :: rest, key => if k = key then some v else alookup rest key

theorem alookup_map_snd {α β : Type} (f : α → β) :
    ∀ (l : List (String × α)) (k : String),
      alookup (l.map (fun p => (p.1, f p.2))) k = (alookup l k).map f := by
  intro l k
  induction l with
  | nil => rfl
  | cons p rest ih =>
    simp only [List.map_cons, alookup]
    by_cases h : p.1 = k
    · simp [h]
    · simp [h, ih]

/-- Terminal ("done") states: spec section 4.3, a job is done when its
normalized state is COMPLETED, and scheduler failed/timeout terminal codes
are also done. -/
def jobDone : JobState → Bool
  | .COMPLETED => true
  | .FAILED => true
  | .TIMEOUT => true
  | _ => false

/-- Modelled from the spec: the polling mode of `is_done` (section 4.3):
`cache` answers strictly from the current cache, `force` triggers a fresh
poll first. -/
inductive PollMode
  | cache
  | force

/-- Modelled from the spec: the state of `PBSInfoWatcher` (missing
`submitthem/pbs/pbs.py`): the set of tracked ids, the info cache
`_info_dict`, a counter of status-query command invocations, and the
external scheduler's status outputs (one per invocation), modelling the
process-runner collaborator. -/
structure PBSInfoWatcher where
  tracked : List String
  _info_dict : String → Option JobInfo
  num_polls : Nat
  source : Nat → String

/-- Modelled from the spec: `register_job` adds an id to the tracked set
with no info yet; idempotent (spec section 4.3). -/
def register_job (w : PBSInfoWatcher) (id : String) : PBSInfoWatcher :=
  { w with tracked := if id ∈ w.tracked then w.tracked else w.tracked ++ [id] }

/-- Python `dict.update` semantics on the cache: ids present in the parsed
mapping get their record replaced whole; ids absent from it keep their
previous record (spec sections 3 and 4.3). -/
def cacheUpdate (c : String → Option JobInfo) (m : List (String × JobInfo)) :
    String → Option JobInfo :=
  fun k => match alookup m k with
    | some v => some v
    | none => c k

/-- The caller-side merge step `watcher._info_dict.update(watcher.read_info(out))`
from `src/submitthem/pbs/test_finished_job_parsing.py`. -/
def infoUpdate (w : PBSInfoWatcher) (m : List (String × JobInfo)) : PBSInfoWatcher :=
  { w with _info_dict := cacheUpdate w._info_dict m }

/-- Modelled from the spec: one forced poll: run the status command (one
more external invocation), parse it with `read_info`, and merge the parsed
records into the cache whole-record-wise (spec section 4.3). -/
def pollUpdate (w : PBSInfoWatcher) : PBSInfoWatcher :=
  { w with
    _info_dict := cacheUpdate w._info_dict (read_info (w.source w.num_polls))
    num_polls := w.num_polls + 1 }

/-- Modelled from the spec: `is_done(id, mode)` (missing
`submitthem/pbs/pbs.py`): in `cache` mode it answers strictly from the
current cache and issues no new poll; in `force` mode it polls first (spec
section 4.3).  Returns the answer and the watcher after the call. -/
def is_done (w : PBSInfoWatcher) (id : String) (mode : PollMode) :
    Bool × PBSInfoWatcher :=
  match mode with
  | .cache =>
    (match w._info_dict id with
     | some info => jobDone info.state
     | none => false, w)
  | .force =>
    let w' := pollUpdate w
    (match w'._info_dict id with
     | some info => jobDone info.state
     | none => false, w')

/-- Modelled from the spec: the method call `watcher.read_info(raw)` of the
missing `PBSInfoWatcher.read_info`: it parses the raw output into a fresh
mapping and does not touch the watcher's own state; incorporating the
records into `_info_dict` is the caller's separate `infoUpdate` step (spec
section 4.3 and the explicit update in
`src/submitthem/pbs/test_finished_job_parsing.py`). -/
def watcher_read_info (w : PBSInfoWatcher) (raw : String) :
    List (String × JobInfo) × PBSInfoWatcher :=
  (read_info raw, w)

/-- Signal produced by the watcher when observing one poll transition of a
tracked id. -/
inductive PollSignal
  | quiet
  | preemptedRequeue
  deriving DecidableEq, Repr

/-- Modelled from the spec: preemption inference (section 4.3 state
machine): a tracked id that was RUNNING and is observed to fall back to
PENDING is reported as preempted-and-requeued; identifier continuity (this
is the poll sequence of one id, with no new submission) distinguishes it
from a fresh job. -/
def observeTransition (prev next : JobState) : PollSignal :=
  if prev = .RUNNING ∧ next = .PENDING then .preemptedRequeue else .quiet

/-- The signals the watcher reports along one tracked id's poll sequence
(one signal per adjacent pair of observations). -/
def pollSignals : List JobState → List PollSignal
  | [] => []
  | [_] => []
  | a :: b :: rest => observeTransition a b :: pollSignals (b :: rest)

/-- Outcome of `result()` after consuming a sequence of observed states. -/
inductive ResultStatus
  | waiting
  | completed
  | raised
  deriving DecidableEq, Repr

/-- Modelled from the spec: the `result()` polling loop (section 4.4): it
keeps waiting until a terminal state is observed; COMPLETED returns,
FAILED/TIMEOUT raise, and any non-terminal observation (including a PENDING
regression after preemption) just continues the wait without error
(section 7). -/
def resultScan : List JobState → ResultStatus
  | [] => .waiting
  | s :: rest =>
    if s = .COMPLETED then .completed
    else if s = .FAILED ∨ s = .TIMEOUT then .raised
    else resultScan rest

/-! ## Identifier functions -/

/-- The predicate "is not the character `c`". -/
def neCharFn (c : Char) : Char → Bool := fun x => !(x == c)

/-- `job_id.split(".")[0]` / `r.split("_")[0]`: the segment before the
first occurrence of `c` (the whole string when `c` does not occur). -/
def upToChar (c : Char) (cs : List Char) : List Char :=
  cs.takeWhile (neCharFn c)

/-- The segment after the first occurrence of `c`. -/
def afterChar (c : Char) (cs : List Char) : List Char :=
  (cs.dropWhile (neCharFn c)).tail

/-- Embeds `extract_main_id` from `src/examples/pbs/array_jobs_pbs.py`
(lines 107-116): strip the domain suffix (`job_id.split(".")[0]`), then if
`re.match(r"(\d+)\[", id_no_domain)` matches return its digit group, else
return `id_no_domain.split("_")[0]`.  The anchored regex `(\d+)\[` matches
exactly when the string starts with a nonempty digit run whose next
character is `'['`, and its group is that digit run. -/
def extract_main_id (job_id : String) : String :=
  let id_no_domain := upToChar '.' job_id.toList
  let ds := id_no_domain.takeWhile Char.isDigit
  if ds ≠ [] ∧ (id_no_domain.drop ds.length).head? = some '[' then String.mk ds
  else String.mk (upToChar '_' id_no_domain)

/-- The spec's wording of the same rule (section 4.2): strip a domain
suffix first (split on the first `.`), then: if the remainder matches
`<digits>[`, return the digits; else if it contains `_`, return the segment
before the first `_`; else return the remainder unchanged. -/
def extract_main_id_spec (job_id : String) : String :=
  let r := upToChar '.' job_id.toList
  let ds := r.takeWhile Char.isDigit
  if ds ≠ [] ∧ (r.drop ds.length).head? = some '[' then String.mk ds
  else if '_' ∈ r then String.mk (upToChar '_' r)
  else String.mk r

/-- Strip one leading literal `"job "` token (spec section 3: an optional
leading literal word `job` followed by whitespace is tolerated and
stripped). -/
def stripJobTok (cs : List Char) : List Char :=
  if ("job ".toList).isPrefixOf cs then cs.drop 4 else cs

/-- Delete every empty bracket pair `[]`. -/
def removeEmptyBrackets : List Char → List Char
  | [] => []
  | '[' :: ']' :: rest => removeEmptyBrackets rest
  | c :: rest => c :: removeEmptyBrackets rest

/-- Modelled from the spec: `PBSExecutor._get_job_id_from_submission_command`
(missing `submitthem/pbs/pbs.py`): normalizes the raw id the submit command
printed by stripping an optional leading `job` token (spec section 3) and
removing empty array brackets, while keeping a domain suffix; behavior fixed
by its test table in `src/submitthem/pbs/test_job_id_parsing.py`. -/
def _get_job_id_from_submission_command (raw : String) : String :=
  String.mk (removeEmptyBrackets (stripJobTok raw.toList))

/-! ## Directive builder -/

def digitChar (n : Nat) : Char := Char.ofNat (48 + n)

def natDigitsAux : Nat → Nat → List Char → List Char
  | 0, _, acc => acc
  | fuel + 1, n, acc =>
    if n < 10 then digitChar n :: acc
    else natDigitsAux fuel (n / 10) (digitChar (n % 10) :: acc)

/-- Decimal rendering of a natural number. -/
def natDigits (n : Nat) : List Char := natDigitsAux (n + 1) n []

/-- Modelled from the spec: the submission configuration fields the
directive builder consumes (spec section 3): walltime minutes, CPU count,
and optional GPU count and memory; the optional array-parallelism cap is
passed to the builder separately, as in
`src/submitthem/pbs/verify_array_jobs.py`. -/
structure SubmissionConfig where
  time : Nat := 60
  cpus_per_task : Nat := 1
  gpus_per_node : Option Nat := none
  mem_gb : Option Nat := none

def shebangLine : List Char := "#!/bin/bash".toList

def nameLine (job_name : String) : List Char := "#PBS -N ".toList ++ job_name.toList

def walltimeLine (cfg : SubmissionConfig) : List Char :=
  "#PBS -l walltime=".toList ++ natDigits (cfg.time / 60) ++ ':' ::
    natDigits (cfg.time % 60) ++ [':', '0', '0']

def selectLine (cfg : SubmissionConfig) : List Char :=
  "#PBS -l select=1:ncpus=".toList ++ natDigits cfg.cpus_per_task ++
    (match cfg.gpus_per_node with
     | some g => ":ngpus=".toList ++ natDigits g
     | none => []) ++
    (match cfg.mem_gb with
     | some m => ":mem=".toList ++ natDigits m ++ ['g', 'b']
     | none => [])

/-- The array directive `#PBS -J 0-<map_count-1>%<array_parallelism>`
(`%`-throttle only when a cap is given; spec section 4.1). -/
def arrayLine (map_count : Nat) (array_parallelism : Option Nat) : List Char :=
  "#PBS -J 0-".toList ++ natDigits (map_count - 1) ++
    (match array_parallelism with
     | some p => '%' :: natDigits p
     | none => [])

def arrayLinesPart (map_count array_parallelism : Option Nat) : List (List Char) :=
  match map_count with
  | some n => if 1 < n then [arrayLine n array_parallelism] else []
  | none => []

/-- Output-file directive: array jobs use the array-aware placeholders
(`%A_%a`), single jobs the single-job token (`%j`) (spec sections 4.1 and
6, and `src/submitthem/pbs/verify_array_jobs.py`). -/
def outLine (isArray : Bool) (job_name : String) : List Char :=
  "#PBS -o ".toList ++ job_name.toList ++
    (if isArray then "_%A_%a.out".toList else "_%j.out".toList)

def errLine (isArray : Bool) (job_name : String) : List Char :=
  "#PBS -e ".toList ++ job_name.toList ++
    (if isArray then "_%A_%a.err".toList else "_%j.err".toList)

def isArrayCount : Option Nat → Bool
  | some n => 1 < n
  | none => false

/-- The script's lines: a header block of directives followed by the user
command (spec section 6). -/
def qsubLines (command job_name : String) (cfg : SubmissionConfig)
    (map_count array_parallelism : Option Nat) : List (List Char) :=
  [shebangLine, nameLine job_name, walltimeLine cfg, selectLine cfg] ++
    arrayLinesPart map_count array_parallelism ++
    [outLine (isArrayCount map_count) job_name,
     errLine (isArrayCount map_count) job_name,
     [],
     command.toList]

/-- Join lines with `'\n'` separators (no trailing newline). -/
def joinLines : List (List Char) → List Char
  | [] => []
  | [l] => l
  | l :: ls => l ++ '\n' :: joinLines ls

/-- Modelled from the spec: `_make_qsub_string` (missing
`submitthem/pbs/pbs.py`), the pure directive builder (spec section 4.1):
turns a command, job name, configuration, and optional map count and
array-parallelism cap into the submission-script text. -/
def _make_qsub_string (command job_name : String) (cfg : SubmissionConfig)
    (map_count array_parallelism : Option Nat) : String :=
  String.mk (joinLines (qsubLines command job_name cfg map_count array_parallelism))

/-- The script lines starting with a given directive pattern. -/
def linesWith (pat : List Char) (script : String) : List (List Char) :=
  (splitLinesCh script.toList).filter (fun l => pat.isPrefixOf l)

def jPat : List Char := "#PBS -J".toList
def wallPat : List Char := "#PBS -l walltime".toList
def selPat : List Char := "#PBS -l select".toList
def namePat : List Char := "#PBS -N".toList
def pbsPat : List Char := "#PBS".toList

/-! ## List-of-characters toolkit -/

theorem ne_of_digit {c x : Char} (h : c.isDigit = true) (hx : x.isDigit = false) :
    c ≠ x := by
  intro he
  subst he
  rw [h] at hx
  cases hx

theorem digitChar_isDigit {n : Nat} (h : n < 10) : (digitChar n).isDigit = true := by
  interval_cases n <;> decide

theorem natDigitsAux_all_digit :
    ∀ (fuel n : Nat) (acc : List Char), (∀ c ∈ acc, c.isDigit = true) →
      ∀ c ∈ natDigitsAux fuel n acc, c.isDigit = true := by
  intro fuel
  induction fuel with
  | zero => intro n acc hacc c hc; exact hacc c hc
  | succ fuel ih =>
    intro n acc hacc c hc
    rw [natDigitsAux] at hc
    by_cases h : n < 10
    · rw [if_pos h] at hc
      rcases List.mem_cons.mp hc with hc | hc
      · rw [hc]; exact digitChar_isDigit h
      · exact hacc c hc
    · rw [if_neg h] at hc
      refine ih (n / 10) _ ?_ c hc
      intro d hd
      rcases List.mem_cons.mp hd with hd | hd
      · rw [hd]; exact digitChar_isDigit (Nat.mod_lt _ (by decide))
      · exact hacc d hd

theorem natDigits_all_digit (n : Nat) : ∀ c ∈ natDigits n, c.isDigit = true :=
  natDigitsAux_all_digit (n + 1) n [] (by intro c hc; cases hc)

theorem not_mem_natDigits {c : Char} (hc : c.isDigit = false) (n : Nat) :
    c ∉ natDigits n := by
  intro h
  have := natDigits_all_digit n c h
  rw [this] at hc
  cases hc

theorem takeWhile_all {p : Char → Bool} :
    ∀ {l : List Char}, (∀ x ∈ l, p x = true) → l.takeWhile p = l := by
  intro l
  induction l with
  | nil => intro _; rfl
  | cons a as ih =>
    intro h
    rw [List.takeWhile_cons_of_pos (h a (List.mem_cons_self a as))]
    rw [ih (fun x hx => h x (List.mem_cons_of_mem a hx))]

theorem dropWhile_all {p : Char → Bool} :
    ∀ {l : List Char}, (∀ x ∈ l, p x = true) → l.dropWhile p = [] := by
  intro l
  induction l with
  | nil => intro _; rfl
  | cons a as ih =>
    intro h
    rw [List.dropWhile_cons_of_pos (h a (List.mem_cons_self a as))]
    exact ih (fun x hx => h x (List.mem_cons_of_mem a hx))

theorem takeWhile_append_stop {p : Char → Bool} {y : Char} (xs ys : List Char)
    (hx : ∀ x ∈ xs, p x = true) (hy : p y = false) :
    (xs ++ y :: ys).takeWhile p = xs := by
  induction xs with
  | nil =>
    simp only [List.nil_append]
    exact List.takeWhile_cons_of_neg (by rw [hy]; exact Bool.false_ne_true)
  | cons a as ih =>
    simp only [List.cons_append]
    rw [List.takeWhile_cons_of_pos (hx a (List.mem_cons_self a as))]
    rw [ih (fun x hxm => hx x (List.mem_cons_of_mem a hxm))]

theorem dropWhile_append_stop {p : Char → Bool} {y : Char} (xs ys : List Char)
    (hx : ∀ x ∈ xs, p x = true) (hy : p y = false) :
    (xs ++ y :: ys).dropWhile p = y :: ys := by
  induction xs with
  | nil =>
    simp only [List.nil_append]
    exact List.dropWhile_cons_of_neg (by rw [hy]; exact Bool.false_ne_true)
  | cons a as ih =>
    simp only [List.cons_append]
    rw [List.dropWhile_cons_of_pos (hx a (List.mem_cons_self a as))]
    exact ih (fun x hxm => hx x (List.mem_cons_of_mem a hxm))

theorem neCharFn_true_of_mem {c : Char} {xs : List Char} (h : c ∉ xs) :
    ∀ x ∈ xs, neCharFn c x = true := by
  intro x hx
  have hne : x ≠ c := by
    intro he
    exact h (he ▸ hx)
  simp [neCharFn, hne]

theorem neCharFn_self (c : Char) : neCharFn c c = false := by simp [neCharFn]

theorem upToChar_append {c : Char} {xs : List Char} (ys : List Char) (h : c ∉ xs) :
    upToChar c (xs ++ c :: ys) = xs :=
  takeWhile_append_stop xs ys (neCharFn_true_of_mem h) (neCharFn_self c)

theorem afterChar_append {c : Char} {xs : List Char} (ys : List Char) (h : c ∉ xs) :
    afterChar c (xs ++ c :: ys) = ys := by
  unfold afterChar
  rw [dropWhile_append_stop xs ys (neCharFn_true_of_mem h) (neCharFn_self c)]
  rfl

theorem upToChar_of_not_mem {c : Char} {xs : List Char} (h : c ∉ xs) :
    upToChar c xs = xs :=
  takeWhile_all (neCharFn_true_of_mem h)

theorem splitLinesCh_append_newline {l : List Char} (rest : List Char)
    (h : '\n' ∉ l) : splitLinesCh (l ++ '\n' :: rest) = l :: splitLinesCh rest := by
  induction l with
  | nil => simp [splitLinesCh]
  | cons c cs ih =>
    have hc : c ≠ '\n' := fun he => h (he ▸ List.mem_cons_self c cs)
    have hcs : '\n' ∉ cs := fun hm => h (List.mem_cons_of_mem c hm)
    simp only [List.cons_append, splitLinesCh, if_neg hc, List.append_eq]
    rw [ih hcs]

theorem splitLinesCh_no_newline {l : List Char} (h : '\n' ∉ l) (hne : l ≠ []) :
    splitLinesCh l = [l] := by
  induction l with
  | nil => exact absurd rfl hne
  | cons c cs ih =>
    have hc : c ≠ '\n' := fun he => h (he ▸ List.mem_cons_self c cs)
    have hcs : '\n' ∉ cs := fun hm => h (List.mem_cons_of_mem c hm)
    simp only [splitLinesCh, if_neg hc]
    cases hcse : cs with
    | nil => rfl
    | cons d ds =>
      rw [← hcse, ih hcs (by rw [hcse]; exact List.cons_ne_nil d ds)]

theorem splitLinesCh_joinLines :
    ∀ {L : List (List Char)}, (∀ l ∈ L, '\n' ∉ l) → L.getLast? ≠ some [] →
      splitLinesCh (joinLines L) = L := by
  intro L
  induction L with
  | nil => intro _ _; rfl
  | cons l ls ih =>
    intro hN hlast
    cases ls with
    | nil =>
      have hl : l ≠ [] := by
        intro he
        exact hlast (by rw [he]; rfl)
      simpa [joinLines] using
        splitLinesCh_no_newline (hN l (List.mem_cons_self l [])) hl
    | cons l2 ls2 =>
      have : joinLines (l :: l2 :: ls2) = l ++ '\n' :: joinLines (l2 :: ls2) := rfl
      rw [this, splitLinesCh_append_newline _ (hN l (List.mem_cons_self l _))]
      rw [ih (fun x hx => hN x (List.mem_cons_of_mem l hx))
        (by simpa [List.getLast?] using hlast)]

theorem isPrefixOf_trans :
    ∀ (p q l : List Char), p.isPrefixOf q = true → q.isPrefixOf l = true →
      p.isPrefixOf l = true := by
  intro p
  induction p with
  | nil => intro q l _ _; cases l <;> rfl
  | cons a as ih =>
    intro q l h1 h2
    cases q with
    | nil => simp [List.isPrefixOf] at h1
    | cons b bs =>
      cases l with
      | nil => simp [List.isPrefixOf] at h2
      | cons c cs =>
        simp only [List.isPrefixOf, Bool.and_eq_true, beq_iff_eq] at h1 h2 ⊢
        exact ⟨h1.1.trans h2.1, ih bs cs h1.2 h2.2⟩

/-! ## Builder line lemmas -/

theorem noNL_append {a b : List Char} (ha : '\n' ∉ a) (hb : '\n' ∉ b) :
    '\n' ∉ a ++ b :=
  fun h => (List.mem_append.mp h).elim ha hb

theorem noNL_cons {c : Char} {l : List Char} (hc : c ≠ '\n') (hl : '\n' ∉ l) :
    '\n' ∉ c :: l := by
  intro h
  rcases List.mem_cons.mp h with h | h
  · exact hc h.symm
  · exact hl h

theorem noNL_digits (n : Nat) : '\n' ∉ natDigits n :=
  not_mem_natDigits (by decide) n

theorem noNL_nil : '\n' ∉ ([] : List Char) := fun h => by cases h

theorem noNL_nameLine {name : String} (h : '\n' ∉ name.toList) :
    '\n' ∉ nameLine name :=
  noNL_append (by decide) h

theorem noNL_walltimeLine (cfg : SubmissionConfig) : '\n' ∉ walltimeLine cfg := by
  unfold walltimeLine
  exact noNL_append
    (noNL_append (noNL_append (by decide) (noNL_digits _))
      (noNL_cons (by decide) (noNL_digits _)))
    (by decide)

theorem noNL_selectLine (cfg : SubmissionConfig) : '\n' ∉ selectLine cfg := by
  unfold selectLine
  refine noNL_append (noNL_append (noNL_append (by decide) (noNL_digits _)) ?_) ?_
  · cases cfg.gpus_per_node with
    | some g => exact noNL_append (by decide) (noNL_digits g)
    | none => exact noNL_nil
  · cases cfg.mem_gb with
    | some m => exact noNL_append (noNL_append (by decide) (noNL_digits m)) (by decide)
    | none => exact noNL_nil

theorem noNL_arrayLine (n : Nat) (ap : Option Nat) : '\n' ∉ arrayLine n ap := by
  unfold arrayLine
  refine noNL_append (noNL_append (by decide) (noNL_digits _)) ?_
  cases ap with
  | some p => exact noNL_cons (by decide) (noNL_digits p)
  | none => exact noNL_nil

theorem noNL_arrayLinesPart (mc ap : Option Nat) :
    ∀ l ∈ arrayLinesPart mc ap, '\n' ∉ l := by
  intro l hl
  cases mc with
  | none => simp [arrayLinesPart] at hl
  | some n =>
    simp only [arrayLinesPart] at hl
    by_cases h : 1 < n
    · rw [if_pos h] at hl
      rw [List.mem_singleton.mp hl]
      exact noNL_arrayLine n ap
    · rw [if_neg h] at hl
      cases hl

theorem noNL_outLine {name : String} (isArr : Bool) (h : '\n' ∉ name.toList) :
    '\n' ∉ outLine isArr name := by
  unfold outLine
  refine noNL_append (noNL_append (by decide) h) ?_
  cases isArr <;> decide

theorem noNL_errLine {name : String} (isArr : Bool) (h : '\n' ∉ name.toList) :
    '\n' ∉ errLine isArr name := by
  unfold errLine
  refine noNL_append (noNL_append (by decide) h) ?_
  cases isArr <;> decide

theorem qsubLines_getLast (cmd name : String) (cfg : SubmissionConfig)
    (mc ap : Option Nat) :
    (qsubLines cmd name cfg mc ap).getLast? = some cmd.toList := by
  unfold qsubLines
  have hsplit :
      [outLine (isArrayCount mc) name, errLine (isArrayCount mc) name, [],
        cmd.toList] =
      [outLine (isArrayCount mc) name, errLine (isArrayCount mc) name, []] ++
        [cmd.toList] := rfl
  rw [hsplit, ← List.append_assoc, List.getLast?_concat]

theorem qsub_split (cmd name : String) (cfg : SubmissionConfig)
    (mc ap : Option Nat) (hcmdNL : '\n' ∉ cmd.toList) (hnameNL : '\n' ∉ name.toList)
    (hcmdne : cmd.toList ≠ []) :
    splitLinesCh (_make_qsub_string cmd name cfg mc ap).toList =
      qsubLines cmd name cfg mc ap := by
  have htoList : (_make_qsub_string cmd name cfg mc ap).toList =
      joinLines (qsubLines cmd name cfg mc ap) := rfl
  rw [htoList]
  apply splitLinesCh_joinLines
  · intro l hl
    unfold qsubLines at hl
    rcases List.mem_append.mp hl with hl | hl
    · rcases List.mem_append.mp hl with hl | hl
      · rcases List.mem_cons.mp hl with rfl | hl
        · decide
        rcases List.mem_cons.mp hl with rfl | hl
        · exact noNL_nameLine hnameNL
        rcases List.mem_cons.mp hl with rfl | hl
        · exact noNL_walltimeLine cfg
        rcases List.mem_cons.mp hl with rfl | hl
        · exact noNL_selectLine cfg
        cases hl
      · exact noNL_arrayLinesPart mc ap l hl
    · rcases List.mem_cons.mp hl with rfl | hl
      · exact noNL_outLine _ hnameNL
      rcases List.mem_cons.mp hl with rfl | hl
      · exact noNL_errLine _ hnameNL
      rcases List.mem_cons.mp hl with rfl | hl
      · exact noNL_nil
      rcases List.mem_cons.mp hl with rfl | hl
      · exact hcmdNL
      cases hl
  · rw [qsubLines_getLast]
    intro h
    exact hcmdne (Option.some.inj h)

/-! Per-line directive-pattern facts (each reduces definitionally: the
pattern is decided inside the line's literal head). -/

theorem pj_shebang : jPat.isPrefixOf shebangLine = false := rfl
theorem pw_shebang : wallPat.isPrefixOf shebangLine = false := rfl
theorem ps_shebang : selPat.isPrefixOf shebangLine = false := rfl
theorem pn_shebang : namePat.isPrefixOf shebangLine = false := rfl

theorem pj_name (s : String) : jPat.isPrefixOf (nameLine s) = false := rfl
theorem pw_name (s : String) : wallPat.isPrefixOf (nameLine s) = false := rfl
theorem ps_name (s : String) : selPat.isPrefixOf (nameLine s) = false := rfl
theorem pn_name (s : String) : namePat.isPrefixOf (nameLine s) = true := rfl

theorem pj_wall (cfg : SubmissionConfig) : jPat.isPrefixOf (walltimeLine cfg) = false := rfl
theorem pw_wall (cfg : SubmissionConfig) : wallPat.isPrefixOf (walltimeLine cfg) = true := rfl
theorem ps_wall (cfg : SubmissionConfig) : selPat.isPrefixOf (walltimeLine cfg) = false := rfl
theorem pn_wall (cfg : SubmissionConfig) : namePat.isPrefixOf (walltimeLine cfg) = false := rfl

theorem pj_sel (cfg : SubmissionConfig) : jPat.isPrefixOf (selectLine cfg) = false := rfl
theorem pw_sel (cfg : SubmissionConfig) : wallPat.isPrefixOf (selectLine cfg) = false := rfl
theorem ps_sel (cfg : SubmissionConfig) : selPat.isPrefixOf (selectLine cfg) = true := rfl
theorem pn_sel (cfg : SubmissionConfig) : namePat.isPrefixOf (selectLine cfg) = false := rfl

theorem pj_arr (n : Nat) (ap : Option Nat) : jPat.isPrefixOf (arrayLine n ap) = true := rfl
theorem pw_arr (n : Nat) (ap : Option Nat) : wallPat.isPrefixOf (arrayLine n ap) = false := rfl
theorem ps_arr (n : Nat) (ap : Option Nat) : selPat.isPrefixOf (arrayLine n ap) = false := rfl
theorem pn_arr (n : Nat) (ap : Option Nat) : namePat.isPrefixOf (arrayLine n ap) = false := rfl

theorem pj_out (b : Bool) (s : String) : jPat.isPrefixOf (outLine b s) = false := rfl
theorem pw_out (b : Bool) (s : String) : wallPat.isPrefixOf (outLine b s) = false := rfl
theorem ps_out (b : Bool) (s : String) : selPat.isPrefixOf (outLine b s) = false := rfl
theorem pn_out (b : Bool) (s : String) : namePat.isPrefixOf (outLine b s) = false := rfl

theorem pj_err (b : Bool) (s : String) : jPat.isPrefixOf (errLine b s) = false := rfl
theorem pw_err (b : Bool) (s : String) : wallPat.isPrefixOf (errLine b s) = false := rfl
theorem ps_err (b : Bool) (s : String) : selPat.isPrefixOf (errLine b s) = false := rfl
theorem pn_err (b : Bool) (s : String) : namePat.isPrefixOf (errLine b s) = false := rfl

theorem pj_nil : jPat.isPrefixOf ([] : List Char) = false := rfl
theorem pw_nil : wallPat.isPrefixOf ([] : List Char) = false := rfl
theorem ps_nil : selPat.isPrefixOf ([] : List Char) = false := rfl
theorem pn_nil : namePat.isPrefixOf ([] : List Char) = false := rfl

/-- A line that does not start with `#PBS` does not start with any
specific `#PBS`-directive pattern either. -/
theorem not_pbs_not_pat {cmd : List Char} (pat : List Char)
    (hp : pbsPat.isPrefixOf pat = true) (h : pbsPat.isPrefixOf cmd = false) :
    pat.isPrefixOf cmd = false := by
  cases hc : pat.isPrefixOf cmd
  · rfl
  · rw [isPrefixOf_trans pbsPat pat cmd hp hc] at h
    cases h

/-- C3: for every configuration, `build_script` with `map_count` absent
produces a script containing no array directive; with `map_count = 5` and
`array_parallelism = 3` it produces exactly one array directive matching
`0-4%3`; with `map_count = 10` and `array_parallelism = 5` it produces
exactly one array directive matching `0-9%5`, and the resource, walltime,
and job-name directives each appear exactly once.  (The command and job
name are single lines and the command is not itself a `#PBS` directive.) -/
theorem C3_directive_builder (cmd name : String) (cfg : SubmissionConfig)
    (hcmdNL : '\n' ∉ cmd.toList) (hnameNL : '\n' ∉ name.toList)
    (hcmdne : cmd.toList ≠ []) (hpbs : pbsPat.isPrefixOf cmd.toList = false) :
    (∀ ap : Option Nat,
      linesWith jPat (_make_qsub_string cmd name cfg none ap) = []) ∧
    linesWith jPat (_make_qsub_string cmd name cfg (some 5) (some 3)) =
      ["#PBS -J 0-4%3".toList] ∧
    linesWith jPat (_make_qsub_string cmd name cfg (some 10) (some 5)) =
      ["#PBS -J 0-9%5".toList] ∧
    (linesWith selPat (_make_qsub_string cmd name cfg (some 10) (some 5))).length = 1 ∧
    (linesWith wallPat (_make_qsub_string cmd name cfg (some 10) (some 5))).length = 1 ∧
    (linesWith namePat (_make_qsub_string cmd name cfg (some 10) (some 5))).length = 1 := by
  have hcmdJ : jPat.isPrefixOf cmd.toList = false :=
    not_pbs_not_pat jPat (by decide) hpbs
  have hcmdW : wallPat.isPrefixOf cmd.toList = false :=
    not_pbs_not_pat wallPat (by decide) hpbs
  have hcmdS : selPat.isPrefixOf cmd.toList = false :=
    not_pbs_not_pat selPat (by decide) hpbs
  have hcmdN : namePat.isPrefixOf cmd.toList = false :=
    not_pbs_not_pat namePat (by decide) hpbs
  refine ⟨?_, ?_, ?_, ?_, ?_, ?_⟩
  · intro ap
    unfold linesWith
    rw [qsub_split cmd name cfg none ap hcmdNL hnameNL hcmdne]
    unfold qsubLines
    have h0 : arrayLinesPart none ap = [] := rfl
    rw [h0]
    simp only [List.filter_append, List.filter_cons, List.filter_nil,
      pj_shebang, pj_name, pj_wall, pj_sel, pj_out, pj_err, pj_nil, hcmdJ,
      Bool.false_eq_true, if_false, reduceIte]
    rfl
  · unfold linesWith
    rw [qsub_split cmd name cfg (some 5) (some 3) hcmdNL hnameNL hcmdne]
    unfold qsubLines
    have h5 : arrayLinesPart (some 5) (some 3) = [arrayLine 5 (some 3)] := rfl
    rw [h5]
    simp only [List.filter_append, List.filter_cons, List.filter_nil,
      pj_shebang, pj_name, pj_wall, pj_sel, pj_arr, pj_out, pj_err, pj_nil, hcmdJ,
      Bool.false_eq_true, if_false, if_true, reduceIte]
    rfl
  · unfold linesWith
    rw [qsub_split cmd name cfg (some 10) (some 5) hcmdNL hnameNL hcmdne]
    unfold qsubLines
    have h10 : arrayLinesPart (some 10) (some 5) = [arrayLine 10 (some 5)] := rfl
    rw [h10]
    simp only [List.filter_append, List.filter_cons, List.filter_nil,
      pj_shebang, pj_name, pj_wall, pj_sel, pj_arr, pj_out, pj_err, pj_nil, hcmdJ,
      Bool.false_eq_true, if_false, if_true, reduceIte]
    rfl
  · unfold linesWith
    rw [qsub_split cmd name cfg (some 10) (some 5) hcmdNL hnameNL hcmdne]
    unfold qsubLines
    have h10 : arrayLinesPart (some 10) (some 5) = [arrayLine 10 (some 5)] := rfl
    rw [h10]
    simp only [List.filter_append, List.filter_cons, List.filter_nil,
      ps_shebang, ps_name, ps_wall, ps_sel, ps_arr, ps_out, ps_err, ps_nil, hcmdS,
      Bool.false_eq_true, if_false, if_true, reduceIte]
    rfl
  · unfold linesWith
    rw [qsub_split cmd name cfg (some 10) (some 5) hcmdNL hnameNL hcmdne]
    unfold qsubLines
    have h10 : arrayLinesPart (some 10) (some 5) = [arrayLine 10 (some 5)] := rfl
    rw [h10]
    simp only [List.filter_append, List.filter_cons, List.filter_nil,
      pw_shebang, pw_name, pw_wall, pw_sel, pw_arr, pw_out, pw_err, pw_nil, hcmdW,
      Bool.false_eq_true, if_false, if_true, reduceIte]
    rfl
  · unfold linesWith
    rw [qsub_split cmd name cfg (some 10) (some 5) hcmdNL hnameNL hcmdne]
    unfold qsubLines
    have h10 : arrayLinesPart (some 10) (some 5) = [arrayLine 10 (some 5)] := rfl
    rw [h10]
    simp only [List.filter_append, List.filter_cons, List.filter_nil,
      pn_shebang, pn_name, pn_wall, pn_sel, pn_arr, pn_out, pn_err, pn_nil, hcmdN,
      Bool.false_eq_true, if_false, if_true, reduceIte]
    rfl

/-- Witness for C3 at a concrete command, job name, and configuration. -/
theorem C3_directive_builder_witness :
    ('\n' ∉ "echo test".toList) ∧
    (linesWith jPat (_make_qsub_string "echo test" "array_test"
        { time := 60, cpus_per_task := 8, gpus_per_node := some 1 }
        (some 5) (some 3)) = ["#PBS -J 0-4%3".toList]) :=
  ⟨by decide,
    (C3_directive_builder "echo test" "array_test"
      { time := 60, cpus_per_task := 8, gpus_per_node := some 1 }
      (by decide) (by decide) (by decide) (by decide)).2.1⟩

/-- C1: for every tabular status output whose `State` column holds the
one-letter code `F` or `C` for a job id, `read_info` maps that job's state
to COMPLETED. -/
theorem C1_read_info_completed (raw id st : String)
    (hrow : alookup (statusRows raw) id = some st)
    (hst : st = "F" ∨ st = "C") :
    alookup (read_info raw) id = some (JobInfo.mk JobState.COMPLETED) := by
  unfold read_info
  rw [alookup_map_snd (fun s => JobInfo.mk (normalizeState s)) (statusRows raw) id]
  rw [hrow]
  rcases hst with rfl | rfl <;> rfl

/-- Witness for C1: parsing `"Job ID           S\n6122024          F\n"`
yields an entry for id `6122024` whose state is COMPLETED, and likewise for
`C`. -/
theorem C1_read_info_completed_witness :
    (alookup (statusRows "Job ID           S\n6122024          F\n") "6122024" =
      some "F") ∧
    alookup (read_info "Job ID           S\n6122024          F\n") "6122024" =
      some (JobInfo.mk JobState.COMPLETED) ∧
    alookup (read_info "Job ID           S\n6122024          C\n") "6122024" =
      some (JobInfo.mk JobState.COMPLETED) :=
  ⟨by decide,
   C1_read_info_completed _ "6122024" "F" (by decide) (Or.inl rfl),
   C1_read_info_completed _ "6122024" "C" (by decide) (Or.inr rfl)⟩

/-- C2 counterexample: `extract_main_id` (from
`src/examples/pbs/array_jobs_pbs.py`) does not strip the leading `job`
token: on `"job 3141592653589793"` it returns the input unchanged, not
`"3141592653589793"` as the claim states. -/
theorem C2_extract_main_id_counterexample :
    extract_main_id "job 3141592653589793" ≠ "3141592653589793" ∧
    extract_main_id "job 3141592653589793" = "job 3141592653589793" :=
  ⟨by decide, by decide⟩

/-- C2 (amended): `extract_main_id` returns `"3141592653589793"` for the
four forms without a leading `job` token; for the `job`-prefixed forms it
returns the input unchanged (the prefix is not stripped); and in general it
strips the domain suffix first (split on the first `.`), then returns the
digits before `[` if the remainder matches `<digits>[`, else the segment
before the first `_` if the remainder contains `_`, else the remainder
unchanged. -/
theorem C2_extract_main_id_amended :
    extract_main_id "3141592653589793.domain" = "3141592653589793" ∧
    extract_main_id "3141592653589793[].domain" = "3141592653589793" ∧
    extract_main_id "3141592653589793[]" = "3141592653589793" ∧
    extract_main_id "3141592653589793" = "3141592653589793" ∧
    extract_main_id "job 3141592653589793" = "job 3141592653589793" ∧
    extract_main_id "job 3141592653589793[]" = "job 3141592653589793[]" ∧
    ∀ s : String, extract_main_id s = extract_main_id_spec s := by
  refine ⟨by decide, by decide, by decide, by decide, by decide, by decide, ?_⟩
  intro s
  simp only [extract_main_id, extract_main_id_spec]
  by_cases h : (upToChar '.' s.toList).takeWhile Char.isDigit ≠ [] ∧
      ((upToChar '.' s.toList).drop
        ((upToChar '.' s.toList).takeWhile Char.isDigit).length).head? = some '['
  · rw [if_pos h, if_pos h]
  · rw [if_neg h, if_neg h]
    by_cases h2 : '_' ∈ upToChar '.' s.toList
    · rw [if_pos h2]
    · rw [if_neg h2, upToChar_of_not_mem h2]

/-- C5: along any poll sequence of one tracked id that shows RUNNING
followed by PENDING (no new submission: it is the same id's sequence), the
watcher reports a preempted/requeued signal, and a `result()` caller that
has seen no terminal state does not terminate on the PENDING observation —
it keeps waiting, with no error. -/
theorem C5_preemption_requeue (pre post : List JobState)
    (hpre : ∀ s ∈ pre, jobDone s = false) :
    PollSignal.preemptedRequeue ∈
      pollSignals (pre ++ JobState.RUNNING :: JobState.PENDING :: post) ∧
    resultScan (pre ++ [JobState.RUNNING, JobState.PENDING]) =
      ResultStatus.waiting := by
  constructor
  · clear hpre
    induction pre with
    | nil =>
      have hobs : observeTransition JobState.RUNNING JobState.PENDING =
          PollSignal.preemptedRequeue := rfl
      simp only [List.nil_append, pollSignals, hobs]
      exact List.mem_cons_self _ _
    | cons a pre ih =>
      have hne : pre ++ JobState.RUNNING :: JobState.PENDING :: post ≠ [] := by
        cases pre <;> simp
      simp only [List.cons_append]
      cases hl : pre ++ JobState.RUNNING :: JobState.PENDING :: post with
      | nil => exact absurd hl hne
      | cons b rest =>
        rw [show pollSignals (a :: b :: rest) =
          observeTransition a b :: pollSignals (b :: rest) from rfl]
        rw [← hl]
        exact List.mem_cons_of_mem _ ih
  · induction pre with
    | nil => rfl
    | cons a pre ih =>
      have ha := hpre a (List.mem_cons_self a pre)
      have h1 : a ≠ JobState.COMPLETED := by
        intro he
        rw [he] at ha
        cases ha
      have h2 : ¬(a = JobState.FAILED ∨ a = JobState.TIMEOUT) := by
        rintro (he | he) <;> (rw [he] at ha; cases ha)
      simp only [List.cons_append, resultScan, if_neg h1, if_neg h2]
      exact ih (fun s hs => hpre s (List.mem_cons_of_mem a hs))

/-- Witness for C5 at a concrete poll sequence `PENDING, RUNNING, PENDING`. -/
theorem C5_preemption_requeue_witness :
    (∀ s ∈ [JobState.PENDING], jobDone s = false) ∧
    PollSignal.preemptedRequeue ∈
      pollSignals [JobState.PENDING, JobState.RUNNING, JobState.PENDING] ∧
    resultScan [JobState.PENDING, JobState.RUNNING, JobState.PENDING] =
      ResultStatus.waiting := by
  refine ⟨by decide, ?_⟩
  exact C5_preemption_requeue [JobState.PENDING] [] (by decide)

/-- C6: if the cache records state COMPLETED for an id, then
`is_done(id, mode="cache")` returns true, leaves the watcher unchanged, and
performs no additional poll (the count of status-query invocations is
unchanged). -/
theorem C6_is_done_cache (w : PBSInfoWatcher) (id : String) (info : JobInfo)
    (hcache : w._info_dict id = some info)
    (hstate : info.state = JobState.COMPLETED) :
    (is_done w id PollMode.cache).1 = true ∧
    (is_done w id PollMode.cache).2 = w ∧
    (is_done w id PollMode.cache).2.num_polls = w.num_polls := by
  refine ⟨?_, rfl, rfl⟩
  show (match w._info_dict id with
    | some info => jobDone info.state
    | none => false) = true
  rw [hcache]
  show jobDone info.state = true
  rw [hstate]
  rfl

/-- Witness for C6, reenacting
`src/submitthem/pbs/test_finished_job_parsing.py`: register `6122024`,
merge the parsed `F`-state output into the cache, then check
cache-mode `is_done`. -/
theorem C6_is_done_cache_witness :
    ((infoUpdate
        (register_job (PBSInfoWatcher.mk [] (fun _ => none) 0 (fun _ => ""))
          "6122024")
        (read_info "Job ID           S\n6122024          F\n"))._info_dict
        "6122024" = some (JobInfo.mk JobState.COMPLETED)) ∧
    (is_done
        (infoUpdate
          (register_job (PBSInfoWatcher.mk [] (fun _ => none) 0 (fun _ => ""))
            "6122024")
          (read_info "Job ID           S\n6122024          F\n"))
        "6122024" PollMode.cache).1 = true :=
  ⟨by decide,
    (C6_is_done_cache _ "6122024" (JobInfo.mk JobState.COMPLETED)
      (by decide) rfl).1⟩

/-- C7: merging a status-query result whose output omits a tracked id
leaves that id's cached record unchanged (in particular it is not reset to
UNKNOWN when a prior state existed); the merge is a total function — the
absent row raises nothing. -/
theorem C7_missing_row (w : PBSInfoWatcher) (raw : String) (id : String)
    (habsent : alookup (read_info raw) id = none) :
    (infoUpdate w (read_info raw))._info_dict id = w._info_dict id := by
  show (match alookup (read_info raw) id with
    | some v => some v
    | none => w._info_dict id) = w._info_dict id
  rw [habsent]

/-- Witness for C7: id `77` has a prior RUNNING record; an output that
only mentions `6122024` leaves `77`'s record intact. -/
theorem C7_missing_row_witness :
    (alookup (read_info "Job ID           S\n6122024          F\n") "77" = none) ∧
    ((infoUpdate
        (PBSInfoWatcher.mk ["77"]
          (fun k => if k = "77" then some (JobInfo.mk JobState.RUNNING) else none)
          0 (fun _ => ""))
        (read_info "Job ID           S\n6122024          F\n"))._info_dict "77" =
      (PBSInfoWatcher.mk ["77"]
          (fun k => if k = "77" then some (JobInfo.mk JobState.RUNNING) else none)
          0 (fun _ => ""))._info_dict "77") ∧
    ((PBSInfoWatcher.mk ["77"]
        (fun k => if k = "77" then some (JobInfo.mk JobState.RUNNING) else none)
        0 (fun _ => ""))._info_dict "77" = some (JobInfo.mk JobState.RUNNING)) :=
  ⟨by decide,
   C7_missing_row _ "Job ID           S\n6122024          F\n" "77" (by decide),
   by decide⟩

/-- C10: `read_info` is read-only with respect to the watcher: the method
call returns a fresh mapping determined by the raw output alone and leaves
`_info_dict` (and the whole watcher) unchanged; merging is the caller's
separate `infoUpdate` step. -/
theorem C10_read_info_readonly (w w' : PBSInfoWatcher) (raw : String) :
    (watcher_read_info w raw).2 = w ∧
    (watcher_read_info w raw).2._info_dict = w._info_dict ∧
    (watcher_read_info w raw).1 = read_info raw ∧
    (watcher_read_info w raw).1 = (watcher_read_info w' raw).1 :=
  ⟨rfl, rfl, rfl, rfl⟩

/-- C9: the submission-time id extraction removes empty array brackets but
preserves a domain suffix and strips a leading `job` token — unlike
`extract_main_id`, which drops the domain. -/
theorem C9_submission_id_extraction :
    _get_job_id_from_submission_command "3141592653589793.domain" =
      "3141592653589793.domain" ∧
    _get_job_id_from_submission_command "3141592653589793[].domain" =
      "3141592653589793.domain" ∧
    _get_job_id_from_submission_command "3141592653589793[]" = "3141592653589793" ∧
    _get_job_id_from_submission_command "3141592653589793" = "3141592653589793" ∧
    _get_job_id_from_submission_command "job 3141592653589793" = "3141592653589793" ∧
    _get_job_id_from_submission_command "job 3141592653589793[]" =
      "3141592653589793" ∧
    extract_main_id "3141592653589793[].domain" = "3141592653589793" := by
  refine ⟨by decide, by decide, by decide, by decide, by decide, by decide, by decide⟩

/-! ## Job identifier codec -/

/-- The array component of a parsed job identifier: none, an empty-bracket
array reference, one concrete task index, a contiguous range, or an
explicit list (spec section 3 grammar). -/
inductive ArrayPart
  | plain
  | emptyBrackets
  | index (i : List Char)
  | range (lo hi : List Char)
  | listing (xs : List (List Char))
  deriving DecidableEq, Repr

/-- Modelled from the spec: `JobIdentifier` (section 3), a structured view
of the scheduler's raw id string: main id, optional domain, array part. -/
structure JobIdentifier where
  main_id : List Char
  domain : Option (List Char)
  arr : ArrayPart
  deriving DecidableEq, Repr

def joinComma : List (List Char) → List Char
  | [] => []
  | [x] => x
  | x :: xs => x ++ ',' :: joinComma xs

def formatArrayPart : ArrayPart → List Char
  | .plain => []
  | .emptyBrackets => ['[', ']']
  | .index i => '_' :: i
  | .range lo hi => '_' :: '[' :: (lo ++ '-' :: hi) ++ [']']
  | .listing xs => '_' :: '[' :: joinComma xs ++ [']']

/-- Modelled from the spec: `format(JobIdentifier)` (section 4.2), the
textual rendering following the section 3 grammar; the domain, if present,
is reattached after the array part. -/
def formatJobId (j : JobIdentifier) : List Char :=
  j.main_id ++ formatArrayPart j.arr ++
    (match j.domain with
     | some d => '.' :: d
     | none => [])

def isDigits (cs : List Char) : Bool := !cs.isEmpty && cs.all Char.isDigit

def splitComma : List Char → List (List Char)
  | [] => [[]]
  | c :: rest =>
    if c = ',' then [] :: splitComma rest
    else
      match splitComma rest with
      | [] => [[c]]
      | l :: ls => (c :: l) :: ls

/-- Modelled from the spec: the body parser of `parse` (section 4.2 of the
missing codec): after the domain has been split off, recognize the
underscore forms (`<main>_<index>`, `<main>_[<low>-<high>]`,
`<main>_[<i1>,<i2>,...]`), the empty-bracket form `<main>[]`, and the plain
form; anything else is an identifier error (`none`). -/
def parseBody (body : List Char) (dom : Option (List Char)) : Option JobIdentifier :=
  if '_' ∈ body then
    let m := upToChar '_' body
    let suf := afterChar '_' body
    if isDigits m then
      if suf.head? = some '[' then
        let rest := suf.tail
        if rest.getLast? = some ']' then
          let inner := rest.dropLast
          if '-' ∈ inner then
            let lo := upToChar '-' inner
            let hi := afterChar '-' inner
            if isDigits lo && isDigits hi then
              some (JobIdentifier.mk m dom (ArrayPart.range lo hi))
            else none
          else
            let parts := splitComma inner
            if parts.all isDigits then
              some (JobIdentifier.mk m dom (ArrayPart.listing parts))
            else none
        else none
      else if isDigits suf then some (JobIdentifier.mk m dom (ArrayPart.index suf))
      else none
    else none
  else
    let ds := body.takeWhile Char.isDigit
    if body = ds ++ ['[', ']'] ∧ ds ≠ [] then
      some (JobIdentifier.mk ds dom ArrayPart.emptyBrackets)
    else if isDigits body then some (JobIdentifier.mk body dom ArrayPart.plain)
    else none

/-- Modelled from the spec: `parse(raw)` (section 4.2 of the missing
codec): strip an optional leading `job` token, split off the domain at the
first `.`, and parse the body against the section 3 grammar. -/
def parseJobId (cs : List Char) : Option JobIdentifier :=
  let s := stripJobTok cs
  if '.' ∈ s then parseBody (upToChar '.' s) (some (afterChar '.' s))
  else parseBody s none

/-- Well-formed array parts: indices are nonempty digit strings and lists
are nonempty. -/
def wfArrayPart : ArrayPart → Bool
  | .plain => true
  | .emptyBrackets => true
  | .index i => isDigits i
  | .range lo hi => isDigits lo && isDigits hi
  | .listing xs => !xs.isEmpty && xs.all isDigits

/-- Well-formed identifiers (section 3 grammar): the main id is a nonempty
digit string. -/
def wfJobId (j : JobIdentifier) : Bool := isDigits j.main_id && wfArrayPart j.arr

/-! ## Round-trip lemmas for the codec -/

theorem digits_ne_nil {cs : List Char} (h : isDigits cs = true) : cs ≠ [] := by
  intro he
  subst he
  exact absurd h (by decide)

theorem digits_all {cs : List Char} (h : isDigits cs = true) :
    ∀ c ∈ cs, c.isDigit = true := by
  unfold isDigits at h
  rw [Bool.and_eq_true] at h
  exact List.all_eq_true.mp h.2

theorem not_mem_of_digits {c : Char} (hc : c.isDigit = false) {cs : List Char}
    (h : isDigits cs = true) : c ∉ cs := by
  intro hm
  have hd := digits_all h c hm
  rw [hd] at hc
  cases hc

theorem mem_joinComma {c : Char} :
    ∀ {xs : List (List Char)}, c ∈ joinComma xs → c = ',' ∨ ∃ x ∈ xs, c ∈ x := by
  intro xs
  induction xs with
  | nil => intro h; cases h
  | cons x xs ih =>
    intro h
    cases xs with
    | nil =>
      refine Or.inr ⟨x, List.mem_singleton.mpr rfl, ?_⟩
      simpa [joinComma] using h
    | cons y ys =>
      rw [show joinComma (x :: y :: ys) = x ++ ',' :: joinComma (y :: ys) from rfl] at h
      rcases List.mem_append.mp h with h | h
      · exact Or.inr ⟨x, List.mem_cons_self _ _, h⟩
      · rcases List.mem_cons.mp h with h | h
        · exact Or.inl h
        · rcases ih h with h | ⟨z, hz, hcz⟩
          · exact Or.inl h
          · exact Or.inr ⟨z, List.mem_cons_of_mem _ hz, hcz⟩

theorem not_mem_formatArrayPart {c : Char} (hdig : c.isDigit = false)
    (hu : c ≠ '_') (hob : c ≠ '[') (hcb : c ≠ ']') (hcm : c ≠ ',') (hhy : c ≠ '-')
    {arr : ArrayPart} (hw : wfArrayPart arr = true) :
    c ∉ formatArrayPart arr := by
  intro hm
  cases arr with
  | plain => cases hm
  | emptyBrackets =>
    rcases List.mem_cons.mp hm with h | h
    · exact hob h
    · rcases List.mem_cons.mp h with h | h
      · exact hcb h
      · cases h
  | index i =>
    rcases List.mem_cons.mp hm with h | h
    · exact hu h
    · exact not_mem_of_digits hdig (by simpa [wfArrayPart] using hw) h
  | range lo hi =>
    have hw2 : isDigits lo = true ∧ isDigits hi = true := by
      have := hw
      simp only [wfArrayPart, Bool.and_eq_true] at this
      exact this
    rcases hw2 with ⟨hlo, hhi⟩
    rcases List.mem_cons.mp hm with h | h
    · exact hu h
    rcases List.mem_cons.mp h with h | h
    · exact hob h
    rcases List.mem_append.mp h with h | h
    · rcases List.mem_append.mp h with h | h
      · exact not_mem_of_digits hdig hlo h
      · rcases List.mem_cons.mp h with h | h
        · exact hhy h
        · exact not_mem_of_digits hdig hhi h
    · rcases List.mem_cons.mp h with h | h
      · exact hcb h
      · cases h
  | listing xs =>
    have hw2 : (!xs.isEmpty) = true ∧ xs.all isDigits = true := by
      have := hw
      simp only [wfArrayPart, Bool.and_eq_true] at this
      exact this
    rcases hw2 with ⟨_, hall⟩
    rcases List.mem_cons.mp hm with h | h
    · exact hu h
    rcases List.mem_cons.mp h with h | h
    · exact hob h
    rcases List.mem_append.mp h with h | h
    · rcases mem_joinComma h with h | ⟨z, hz, hcz⟩
      · exact hcm h
      · exact not_mem_of_digits hdig (List.all_eq_true.mp hall z hz) hcz
    · rcases List.mem_cons.mp h with h | h
      · exact hcb h
      · cases h

theorem splitComma_append (x rest : List Char) (hx : ',' ∉ x) :
    splitComma (x ++ ',' :: rest) = x :: splitComma rest := by
  induction x with
  | nil => simp [splitComma]
  | cons c cx ih =>
    have hc : c ≠ ',' := fun he => hx (he ▸ List.mem_cons_self c cx)
    have hcx : ',' ∉ cx := fun hm => hx (List.mem_cons_of_mem c hm)
    simp only [List.cons_append, splitComma, if_neg hc, List.append_eq]
    rw [ih hcx]

theorem splitComma_no_comma (x : List Char) (hx : ',' ∉ x) : splitComma x = [x] := by
  induction x with
  | nil => rfl
  | cons c cx ih =>
    have hc : c ≠ ',' := fun he => hx (he ▸ List.mem_cons_self c cx)
    have hcx : ',' ∉ cx := fun hm => hx (List.mem_cons_of_mem c hm)
    simp only [splitComma, if_neg hc]
    rw [ih hcx]

theorem splitComma_joinComma :
    ∀ (xs : List (List Char)), xs ≠ [] → (∀ x ∈ xs, ',' ∉ x) →
      splitComma (joinComma xs) = xs := by
  intro xs
  induction xs with
  | nil => intro h _; exact absurd rfl h
  | cons x xs ih =>
    intro _ hall
    cases xs with
    | nil =>
      rw [show joinComma [x] = x from rfl]
      exact splitComma_no_comma x (hall x (List.mem_singleton.mpr rfl))
    | cons y ys =>
      rw [show joinComma (x :: y :: ys) = x ++ ',' :: joinComma (y :: ys) from rfl]
      rw [splitComma_append x _ (hall x (List.mem_cons_self _ _))]
      rw [ih (by simp) (fun z hz => hall z (List.mem_cons_of_mem _ hz))]

theorem parseBody_format (main : List Char) (arr : ArrayPart)
    (dom : Option (List Char)) (hm : isDigits main = true)
    (ha : wfArrayPart arr = true) :
    parseBody (main ++ formatArrayPart arr) dom =
      some (JobIdentifier.mk main dom arr) := by
  have hmu : '_' ∉ main := not_mem_of_digits (by decide) hm
  cases arr with
  | plain =>
    rw [show formatArrayPart ArrayPart.plain = [] from rfl, List.append_nil]
    have ht : main.takeWhile Char.isDigit = main := takeWhile_all (digits_all hm)
    simp only [parseBody]
    rw [if_neg hmu, ht]
    have hne : ¬(main = main ++ ['[', ']'] ∧ main ≠ []) := by
      rintro ⟨he, -⟩
      have := congrArg List.length he
      simp at this
    rw [if_neg hne, if_pos hm]
  | emptyBrackets =>
    rw [show formatArrayPart ArrayPart.emptyBrackets = ['[', ']'] from rfl]
    have hnu : '_' ∉ main ++ ['[', ']'] := by
      intro hmem
      rcases List.mem_append.mp hmem with hmem | hmem
      · exact hmu hmem
      · rcases List.mem_cons.mp hmem with hmem | hmem
        · exact absurd hmem (by decide)
        · rcases List.mem_cons.mp hmem with hmem | hmem
          · exact absurd hmem (by decide)
          · cases hmem
    have htw : (main ++ ['[', ']']).takeWhile Char.isDigit = main := by
      rw [show (['[', ']'] : List Char) = '[' :: [']'] from rfl]
      exact takeWhile_append_stop main [']'] (digits_all hm) (by decide)
    simp only [parseBody]
    rw [if_neg hnu, htw, if_pos ⟨rfl, digits_ne_nil hm⟩]
  | index i =>
    have hi : isDigits i = true := by simpa [wfArrayPart] using ha
    rw [show formatArrayPart (ArrayPart.index i) = '_' :: i from rfl]
    have hin : '_' ∈ main ++ '_' :: i :=
      List.mem_append.mpr (Or.inr (List.mem_cons_self _ _))
    have hup := upToChar_append i hmu
    have haf := afterChar_append i hmu
    simp only [parseBody]
    rw [if_pos hin, hup, haf, if_pos hm]
    have hob : ¬(i.head? = some '[') := by
      cases i with
      | nil => exact absurd rfl (digits_ne_nil hi)
      | cons c cs =>
        intro hh
        have hc : c = '[' := Option.some.inj hh
        have hd := digits_all hi c (List.mem_cons_self _ _)
        rw [hc] at hd
        exact absurd hd (by decide)
    rw [if_neg hob, if_pos hi]
  | range lo hi =>
    have hw2 : isDigits lo = true ∧ isDigits hi = true := by
      have := ha
      simp only [wfArrayPart, Bool.and_eq_true] at this
      exact this
    rcases hw2 with ⟨hlo, hhi⟩
    rw [show formatArrayPart (ArrayPart.range lo hi) =
      '_' :: '[' :: ((lo ++ '-' :: hi) ++ [']']) from rfl]
    have hin : '_' ∈ main ++ '_' :: '[' :: ((lo ++ '-' :: hi) ++ [']']) :=
      List.mem_append.mpr (Or.inr (List.mem_cons_self _ _))
    have hup := upToChar_append ('[' :: ((lo ++ '-' :: hi) ++ [']'])) hmu
    have haf := afterChar_append ('[' :: ((lo ++ '-' :: hi) ++ [']'])) hmu
    simp only [parseBody]
    rw [if_pos hin, hup, haf, if_pos hm]
    simp only [List.head?, List.tail]
    rw [if_pos trivial, if_pos (List.getLast?_concat _), List.dropLast_concat]
    have hdash : '-' ∈ lo ++ '-' :: hi :=
      List.mem_append.mpr (Or.inr (List.mem_cons_self _ _))
    rw [if_pos hdash]
    rw [upToChar_append _ (not_mem_of_digits (by decide) hlo),
        afterChar_append _ (not_mem_of_digits (by decide) hlo)]
    rw [if_pos (by rw [hlo, hhi]; rfl)]
  | listing xs =>
    have hw2 : (!xs.isEmpty) = true ∧ xs.all isDigits = true := by
      have := ha
      simp only [wfArrayPart, Bool.and_eq_true] at this
      exact this
    rcases hw2 with ⟨hne0, hall⟩
    have hne : xs ≠ [] := by
      cases xs
      · exact absurd hne0 (by decide)
      · exact List.cons_ne_nil _ _
    have hdigs : ∀ x ∈ xs, isDigits x = true := List.all_eq_true.mp hall
    rw [show formatArrayPart (ArrayPart.listing xs) =
      '_' :: '[' :: (joinComma xs ++ [']']) from rfl]
    have hin : '_' ∈ main ++ '_' :: '[' :: (joinComma xs ++ [']']) :=
      List.mem_append.mpr (Or.inr (List.mem_cons_self _ _))
    have hup := upToChar_append ('[' :: (joinComma xs ++ [']'])) hmu
    have haf := afterChar_append ('[' :: (joinComma xs ++ [']'])) hmu
    simp only [parseBody]
    rw [if_pos hin, hup, haf, if_pos hm]
    simp only [List.head?, List.tail]
    rw [if_pos trivial, if_pos (List.getLast?_concat _), List.dropLast_concat]
    have hdash : '-' ∉ joinComma xs := by
      intro hmem
      rcases mem_joinComma hmem with hmem | ⟨z, hz, hcz⟩
      · exact absurd hmem (by decide)
      · exact not_mem_of_digits (by decide) (hdigs z hz) hcz
    rw [if_neg hdash]
    rw [splitComma_joinComma xs hne
      (fun z hz => not_mem_of_digits (by decide) (hdigs z hz))]
    rw [if_pos hall]

theorem jobTok_not_prefix_of_digit {d : Char} (hd : d.isDigit = true)
    (rest : List Char) : ("job ".toList).isPrefixOf (d :: rest) = false := by
  rw [show ("job ".toList).isPrefixOf (d :: rest) =
    (('j' == d) && (['o', 'b', ' '].isPrefixOf rest)) from rfl]
  have h : d ≠ 'j' := ne_of_digit hd (by decide)
  have hne : ('j' == d) = false := by
    simp [Ne.symm h]
  rw [hne]
  rfl

theorem stripJobTok_append_digit {main : List Char} (hm : isDigits main = true)
    (rest : List Char) : stripJobTok (main ++ rest) = main ++ rest := by
  cases main with
  | nil => exact absurd rfl (digits_ne_nil hm)
  | cons d ms =>
    have hd : d.isDigit = true := digits_all hm d (List.mem_cons_self _ _)
    show stripJobTok (d :: (ms ++ rest)) = (d :: ms) ++ rest
    unfold stripJobTok
    rw [jobTok_not_prefix_of_digit hd]
    simp

theorem stripJobTok_jobTok (rest : List Char) :
    stripJobTok ("job ".toList ++ rest) = rest := by
  show stripJobTok ('j' :: 'o' :: 'b' :: ' ' :: rest) = rest
  unfold stripJobTok
  simp

theorem dot_not_mem_body {main : List Char} {arr : ArrayPart}
    (hm : isDigits main = true) (ha : wfArrayPart arr = true) :
    '.' ∉ main ++ formatArrayPart arr := by
  intro hmem
  rcases List.mem_append.mp hmem with hmem | hmem
  · exact not_mem_of_digits (by decide) hm hmem
  · exact not_mem_formatArrayPart (by decide) (by decide) (by decide) (by decide)
      (by decide) (by decide) ha hmem

theorem parseJobId_format (j : JobIdentifier) (h : wfJobId j = true) :
    parseJobId (formatJobId j) = some j := by
  obtain ⟨main, dom, arr⟩ := j
  have hsplit : isDigits main = true ∧ wfArrayPart arr = true := by
    simp only [wfJobId, Bool.and_eq_true] at h
    exact h
  rcases hsplit with ⟨hm, ha⟩
  cases dom with
  | none =>
    have hfmt : formatJobId (JobIdentifier.mk main none arr) =
        main ++ formatArrayPart arr := by
      simp [formatJobId]
    rw [hfmt]
    simp only [parseJobId]
    rw [stripJobTok_append_digit hm]
    rw [if_neg (dot_not_mem_body hm ha)]
    exact parseBody_format main arr none hm ha
  | some dm =>
    have hfmt : formatJobId (JobIdentifier.mk main (some dm) arr) =
        (main ++ formatArrayPart arr) ++ '.' :: dm := by
      simp [formatJobId, List.append_assoc]
    rw [hfmt]
    simp only [parseJobId]
    rw [List.append_assoc, stripJobTok_append_digit hm, ← List.append_assoc]
    have hin : '.' ∈ (main ++ formatArrayPart arr) ++ '.' :: dm :=
      List.mem_append.mpr (Or.inr (List.mem_cons_self _ _))
    rw [if_pos hin]
    rw [upToChar_append _ (dot_not_mem_body hm ha),
        afterChar_append _ (dot_not_mem_body hm ha)]
    exact parseBody_format main arr (some dm) hm ha

/-- C8: for every raw id string in one of the grammar forms of the spec's
data model (generated by `formatJobId` from a well-formed `JobIdentifier`,
optionally preceded by the literal `job` token), `format(parse(s))` is
semantically equivalent to `s`: parsing recovers the exact structured
identifier, so re-formatting reproduces `s` with the optional leading
`job` token consumed and not preserved. -/
theorem C8_identifier_roundtrip (j : JobIdentifier) (h : wfJobId j = true) :
    parseJobId (formatJobId j) = some j ∧
    parseJobId ("job ".toList ++ formatJobId j) = some j ∧
    (parseJobId (formatJobId j)).map formatJobId = some (formatJobId j) ∧
    (parseJobId ("job ".toList ++ formatJobId j)).map formatJobId =
      some (formatJobId j) := by
  have h1 : parseJobId (formatJobId j) = some j := parseJobId_format j h
  have h2 : parseJobId ("job ".toList ++ formatJobId j) = some j := by
    simp only [parseJobId] at h1 ⊢
    rw [stripJobTok_jobTok]
    have hm : isDigits j.main_id = true := by
      simp only [wfJobId, Bool.and_eq_true] at h
      exact h.1
    have hfmt : formatJobId j = j.main_id ++
        (formatArrayPart j.arr ++
          (match j.domain with
           | some d => '.' :: d
           | none => [])) := by
      simp [formatJobId, List.append_assoc]
    rw [hfmt] at h1 ⊢
    rw [stripJobTok_append_digit hm] at h1
    exact h1
  exact ⟨h1, h2, by rw [h1]; rfl, by rw [h2]; rfl⟩

/-- Witness for C8 at concrete identifiers covering the grammar forms:
plain, with domain, empty brackets with domain, task index, range, and
explicit list. -/
theorem C8_identifier_roundtrip_witness :
    (wfJobId (JobIdentifier.mk "3141592653589793".toList
      (some "domain".toList) (ArrayPart.range "0".toList "4".toList)) = true) ∧
    parseJobId (formatJobId (JobIdentifier.mk "3141592653589793".toList
      (some "domain".toList) (ArrayPart.range "0".toList "4".toList))) =
      some (JobIdentifier.mk "3141592653589793".toList
        (some "domain".toList) (ArrayPart.range "0".toList "4".toList)) ∧
    parseJobId ("job ".toList ++ formatJobId (JobIdentifier.mk
        "3141592653589793".toList (some "domain".toList)
        (ArrayPart.range "0".toList "4".toList))) =
      some (JobIdentifier.mk "3141592653589793".toList
        (some "domain".toList) (ArrayPart.range "0".toList "4".toList)) :=
  ⟨by decide,
   (C8_identifier_roundtrip _ (by decide)).1,
   (C8_identifier_roundtrip _ (by decide)).2.1⟩

/-! ## Array batch -/

def domainSuffix : Option (List Char) → List Char
  | some d => '.' :: d
  | none => []

/-- The characters of one derived per-task id: `<main>_<i>` with the
domain, if present, reattached (spec section 4.2 array expansion). -/
def taskIdChars (main : List Char) (dom : Option (List Char)) (i : Nat) : List Char :=
  main ++ '_' :: (natDigits i ++ domainSuffix dom)

/-- Modelled from the spec: the per-task handle ids derived exactly once at
submission time from the single scheduler-returned array id and the known
`map_count` (spec section 4.2). -/
def deriveTaskIds (main : List Char) (dom : Option (List Char)) (map_count : Nat) :
    List String :=
  (List.range map_count).map (fun i => String.mk (taskIdChars main dom i))

structure BatchResult where
  script : String
  handles : List String

/-- Modelled from the spec: the flush of an `ArrayBatch` scope (spec
sections 3, 4.4): with at least two captured submissions it builds one
array script with `map_count` = number captured and one scheduler
submission, deriving one handle per captured submission from the single
returned main id; with fewer it degrades to an ordinary non-array
submission whose script has no map count. -/
def batchFlush (cmd name : String) (cfg : SubmissionConfig)
    (array_parallelism : Option Nat) (captured : Nat)
    (main : List Char) (dom : Option (List Char)) : BatchResult :=
  if 2 ≤ captured then
    { script := _make_qsub_string cmd name cfg (some captured) array_parallelism
      handles := deriveTaskIds main dom captured }
  else
    { script := _make_qsub_string cmd name cfg none none
      handles := [String.mk (main ++ domainSuffix dom)] }

theorem dot_not_mem_main_und (main nd : List Char) (hm : isDigits main = true)
    (hnd : ∀ c ∈ nd, c.isDigit = true) : '.' ∉ main ++ '_' :: nd := by
  intro hmem
  rcases List.mem_append.mp hmem with hmem | hmem
  · exact not_mem_of_digits (by decide) hm hmem
  · rcases List.mem_cons.mp hmem with hmem | hmem
    · exact absurd hmem (by decide)
    · have := hnd _ hmem
      exact absurd this (by decide)

theorem extract_aux (s : String) (main nd : List Char) (hm : isDigits main = true)
    (hup : upToChar '.' s.toList = main ++ '_' :: nd) :
    extract_main_id s = String.mk main := by
  simp only [extract_main_id]
  rw [hup]
  have htw : (main ++ '_' :: nd).takeWhile Char.isDigit = main :=
    takeWhile_append_stop main nd (digits_all hm) (by decide)
  rw [htw]
  rw [List.drop_left]
  have hcond : ¬(main ≠ [] ∧ ('_' :: nd).head? = some '[') := by
    rintro ⟨-, hh⟩
    exact absurd (Option.some.inj hh) (by decide)
  rw [if_neg hcond]
  rw [upToChar_append nd (not_mem_of_digits (by decide) hm)]

theorem extract_main_taskId (main : List Char) (dom : Option (List Char)) (i : Nat)
    (hm : isDigits main = true) :
    extract_main_id (String.mk (taskIdChars main dom i)) = String.mk main := by
  cases dom with
  | none =>
    apply extract_aux _ main (natDigits i) hm
    show upToChar '.' (taskIdChars main none i) = main ++ '_' :: natDigits i
    unfold taskIdChars domainSuffix
    rw [List.append_nil]
    exact upToChar_of_not_mem
      (dot_not_mem_main_und main (natDigits i) hm (natDigits_all_digit i))
  | some d =>
    apply extract_aux _ main (natDigits i) hm
    show upToChar '.' (taskIdChars main (some d) i) = main ++ '_' :: natDigits i
    unfold taskIdChars domainSuffix
    have hshape : main ++ '_' :: (natDigits i ++ '.' :: d) =
        (main ++ '_' :: natDigits i) ++ '.' :: d := by simp
    rw [hshape]
    exact upToChar_append d
      (dot_not_mem_main_und main (natDigits i) hm (natDigits_all_digit i))

/-- Shared helper: with `map_count` absent the generated script has no
array directive line. -/
theorem linesWith_jPat_no_map (cmd name : String) (cfg : SubmissionConfig)
    (ap : Option Nat) (hcmdNL : '\n' ∉ cmd.toList) (hnameNL : '\n' ∉ name.toList)
    (hcmdne : cmd.toList ≠ []) (hpbs : pbsPat.isPrefixOf cmd.toList = false) :
    linesWith jPat (_make_qsub_string cmd name cfg none ap) = [] := by
  have hcmdJ : jPat.isPrefixOf cmd.toList = false :=
    not_pbs_not_pat jPat (by decide) hpbs
  unfold linesWith
  rw [qsub_split cmd name cfg none ap hcmdNL hnameNL hcmdne]
  unfold qsubLines
  have h0 : arrayLinesPart none ap = [] := rfl
  rw [h0]
  simp only [List.filter_append, List.filter_cons, List.filter_nil,
    pj_shebang, pj_name, pj_wall, pj_sel, pj_out, pj_err, pj_nil, hcmdJ,
    Bool.false_eq_true, if_false, reduceIte]
  rfl

/-- C4: at a batch flush with two or more captured submissions, every job
handle produced shares the identical main id of the one array submission
(via `extract_main_id`, the src comparison function), and there are as many
handles as captured submissions; with exactly one captured submission the
flush degrades to an ordinary submission whose script contains no array
directive. -/
theorem C4_array_batch (cmd name : String) (cfg : SubmissionConfig)
    (ap : Option Nat) (captured : Nat) (main : List Char)
    (dom : Option (List Char)) (hm : isDigits main = true)
    (hcmdNL : '\n' ∉ cmd.toList) (hnameNL : '\n' ∉ name.toList)
    (hcmdne : cmd.toList ≠ []) (hpbs : pbsPat.isPrefixOf cmd.toList = false) :
    (2 ≤ captured →
      (∀ h1 ∈ (batchFlush cmd name cfg ap captured main dom).handles,
        extract_main_id h1 = String.mk main) ∧
      (batchFlush cmd name cfg ap captured main dom).handles.length = captured) ∧
    (captured = 1 →
      linesWith jPat (batchFlush cmd name cfg ap captured main dom).script = []) := by
  constructor
  · intro hc
    unfold batchFlush
    rw [if_pos hc]
    constructor
    · intro h1 hh1
      unfold deriveTaskIds at hh1
      rcases List.mem_map.mp hh1 with ⟨i, _, rfl⟩
      exact extract_main_taskId main dom i hm
    · simp [deriveTaskIds]
  · intro hc
    subst hc
    unfold batchFlush
    rw [if_neg (by decide)]
    exact linesWith_jPat_no_map cmd name cfg none hcmdNL hnameNL hcmdne hpbs

/-- Witness for C4 at a concrete flush: two captured submissions with
scheduler id `123[].domain` share main id `123`; one captured submission
produces a script with no array directive. -/
theorem C4_array_batch_witness :
    (isDigits "123".toList = true) ∧
    (∀ h1 ∈ (batchFlush "echo x" "n" {} none 2 "123".toList
        (some "domain".toList)).handles,
      extract_main_id h1 = String.mk "123".toList) ∧
    linesWith jPat (batchFlush "echo x" "n" {} none 1 "123".toList
        (some "domain".toList)).script = [] :=
  ⟨by decide,
   ((C4_array_batch "echo x" "n" {} none 2 "123".toList (some "domain".toList)
      (by decide) (by decide) (by decide) (by decide) (by decide)).1
      (by decide)).1,
   (C4_array_batch "echo x" "n" {} none 1 "123".toList (some "domain".toList)
      (by decide) (by decide) (by decide) (by decide) (by decide)).2 rfl⟩

end SubmitThem
